import Mathlib

/-!
Verification of the webpub content-addressed publishing core against its
natural-language specification.  The Rust sources are shallowly embedded:
byte strings become `List Nat`, the BLAKE3 hash and the FastCDC gear table
are abstract parameters (every verified property is independent of their
values), SQLite tables become Lean lists manipulated exactly as the SQL
statements of `src/server/storage.rs` manipulate the rows.
-/

namespace Webpub

/-- Byte strings (`Vec<u8>` / `&[u8]` in the source). Each element models one byte. -/
abbrev Bytes := List Nat

/-- A content-addressed chunk (src/chunker.rs, `struct Chunk`). `hash` models the
32-byte BLAKE3 digest, `data` the payload bytes. -/
structure Chunk where
  hash : Bytes
  data : Bytes
deriving Repr, DecidableEq

/-- Chunk size parameters from src/chunker.rs: min 16KB. -/
def MIN_SIZE : Nat := 16 * 1024

/-- Chunk size parameters from src/chunker.rs: avg 32KB. -/
def AVG_SIZE : Nat := 32 * 1024

/-- Chunk size parameters from src/chunker.rs: max 64KB. -/
def MAX_SIZE : Nat := 64 * 1024

/-- Modelled from the spec: the inner scanning loop of the FastCDC-2020
cut-point rule (section 4.1 of the spec; the implementation lives in the
external `fastcdc` crate, not in this repository's sources).  Starting at
byte position `pos` of the input it rolls the gear hash over successive
bytes and stops at the first position whose hash matches the strict mask
(up to `limit1`) or the lazy mask (after `limit1`); if no cut point is
found it consumes the whole window.  The gear table and the two masks are
parameters: every property proved below holds for all of them. -/
def gearScan (gear : Nat → Nat) (maskS maskL : Nat) (limit1 : Nat) :
    Bytes → Nat → Nat → Nat
  | [], _, pos => pos
  | b :: rest, h, pos =>
    let h2 := ((h / 2) + gear b) % 2 ^ 64
    let pos2 := pos + 1
    if pos2 ≤ limit1 then
      if Nat.land h2 maskS = 0 then pos2 else gearScan gear maskS maskL limit1 rest h2 pos2
    else
      if Nat.land h2 maskL = 0 then pos2 else gearScan gear maskS maskL limit1 rest h2 pos2

theorem le_gearScan (gear : Nat → Nat) (maskS maskL limit1 : Nat) :
    ∀ (bytes : Bytes) (h pos : Nat), pos ≤ gearScan gear maskS maskL limit1 bytes h pos := by
  intro bytes
  induction bytes with
  | nil => intro h pos; simp [gearScan]
  | cons b rest ih =>
    intro h pos
    simp only [gearScan]
    split
    · split
      · exact Nat.le_succ pos
      · exact Nat.le_trans (Nat.le_succ pos) (ih _ _)
    · split
      · exact Nat.le_succ pos
      · exact Nat.le_trans (Nat.le_succ pos) (ih _ _)

theorem gearScan_le (gear : Nat → Nat) (maskS maskL limit1 : Nat) :
    ∀ (bytes : Bytes) (h pos : Nat),
      gearScan gear maskS maskL limit1 bytes h pos ≤ pos + bytes.length := by
  intro bytes
  induction bytes with
  | nil => intro h pos; simp [gearScan]
  | cons b rest ih =>
    intro h pos
    simp only [gearScan, List.length_cons]
    have harith : pos + 1 + rest.length = pos + (rest.length + 1) := by omega
    split
    · split
      · omega
      · calc gearScan gear maskS maskL limit1 rest _ (pos + 1) ≤ pos + 1 + rest.length := ih _ _
          _ = pos + (rest.length + 1) := harith
    · split
      · omega
      · calc gearScan gear maskS maskL limit1 rest _ (pos + 1) ≤ pos + 1 + rest.length := ih _ _
          _ = pos + (rest.length + 1) := harith

/-- Modelled from the spec: the FastCDC-2020 cut-point rule of the external
`fastcdc` crate, section 4.1 of the spec.  Given the not-yet-chunked suffix of
the input it returns the length of the next chunk: the whole remainder when it
is at most `min`, otherwise the gear-scan cut point, capped at `max`. -/
def fastcdcCut (gear : Nat → Nat) (maskS maskL : Nat) (data : Bytes) : Nat :=
  if data.length ≤ MIN_SIZE then data.length
  else
    gearScan gear maskS maskL (min AVG_SIZE (min data.length MAX_SIZE))
      ((data.take (min data.length MAX_SIZE)).drop MIN_SIZE) 0 MIN_SIZE

theorem fastcdcCut_pos (gear : Nat → Nat) (maskS maskL : Nat) (data : Bytes)
    (hne : data ≠ []) : 1 ≤ fastcdcCut gear maskS maskL data := by
  unfold fastcdcCut
  split
  · have h0 : 0 < data.length := List.length_pos.mpr hne
    omega
  · have h1 : MIN_SIZE ≤ gearScan gear maskS maskL (min AVG_SIZE (min data.length MAX_SIZE))
        ((data.take (min data.length MAX_SIZE)).drop MIN_SIZE) 0 MIN_SIZE :=
      le_gearScan gear maskS maskL _ _ 0 MIN_SIZE
    have h2 : 0 < MIN_SIZE := by norm_num [MIN_SIZE]
    omega

theorem fastcdcCut_le (gear : Nat → Nat) (maskS maskL : Nat) (data : Bytes) :
    fastcdcCut gear maskS maskL data ≤ data.length := by
  unfold fastcdcCut
  split
  · exact Nat.le_refl _
  · rename_i hgt
    push_neg at hgt
    have hminmax : MIN_SIZE ≤ MAX_SIZE := by norm_num [MIN_SIZE, MAX_SIZE]
    have hsize : MIN_SIZE ≤ min data.length MAX_SIZE := by
      have : MIN_SIZE ≤ data.length := Nat.le_of_lt hgt
      exact Nat.le_min.mpr ⟨this, hminmax⟩
    have hsizele : min data.length MAX_SIZE ≤ data.length := Nat.min_le_left _ _
    have hlen : ((data.take (min data.length MAX_SIZE)).drop MIN_SIZE).length
        = min data.length MAX_SIZE - MIN_SIZE := by
      simp [List.length_drop, List.length_take]
    have hscan := gearScan_le gear maskS maskL (min AVG_SIZE (min data.length MAX_SIZE))
      ((data.take (min data.length MAX_SIZE)).drop MIN_SIZE) 0 MIN_SIZE
    rw [hlen] at hscan
    omega

/-- The sequence of `(offset, length)` spans produced by the FastCDC iterator
over `data` starting at `pos` (src/chunker.rs drives this iterator). -/
def chunkSpans (gear : Nat → Nat) (maskS maskL : Nat) (data : Bytes) (pos : Nat) :
    List (Nat × Nat) :=
  if _h : data.length ≤ pos then []
  else
    let len := fastcdcCut gear maskS maskL (data.drop pos)
    (pos, len) :: chunkSpans gear maskS maskL data (pos + len)
termination_by data.length - pos
decreasing_by
  have hne : data.drop pos ≠ [] := by
    intro hnil
    have := List.drop_eq_nil_iff.mp hnil
    omega
  have := fastcdcCut_pos gear maskS maskL (data.drop pos) hne
  omega

/-- Model of `chunk_data` (src/chunker.rs:16-27): map each FastCDC span to a
chunk whose payload is the corresponding slice of the input and whose hash is
the digest of that slice.  `b3` abstracts the BLAKE3 hash function. -/
def chunk_data (b3 : Bytes → Bytes) (gear : Nat → Nat) (maskS maskL : Nat)
    (data : Bytes) : List Chunk :=
  (chunkSpans gear maskS maskL data 0).map (fun s =>
    let cd := (data.drop s.1).take s.2
    { hash := b3 cd, data := cd })

/-- Decidable check that a span list tiles the interval `[pos, n)` exactly:
each span starts where the previous one ended, spans are nonempty, and the
last one ends at `n`. -/
def spansCovering (n : Nat) : Nat → List (Nat × Nat) → Bool
  | pos, [] => pos == n
  | pos, (off, len) :: rest => off == pos && len != 0 && spansCovering n (pos + len) rest

theorem chunkSpans_join (gear : Nat → Nat) (maskS maskL : Nat) (data : Bytes) :
    ∀ (fuel pos : Nat), data.length - pos ≤ fuel →
      ((chunkSpans gear maskS maskL data pos).map
        (fun s => (data.drop s.1).take s.2)).flatten = data.drop pos := by
  intro fuel
  induction fuel with
  | zero =>
    intro pos hle
    have hge : data.length ≤ pos := by omega
    rw [chunkSpans]
    simp [hge, List.drop_eq_nil_of_le hge]
  | succ m ih =>
    intro pos hle
    rw [chunkSpans]
    split
    · rename_i hge
      simp [List.drop_eq_nil_of_le hge]
    · rename_i hlt
      push_neg at hlt
      have hne : data.drop pos ≠ [] := by
        intro hnil
        have := List.drop_eq_nil_iff.mp hnil
        omega
      have hpos := fastcdcCut_pos gear maskS maskL (data.drop pos) hne
      simp only [List.map_cons, List.flatten_cons]
      rw [ih (pos + fastcdcCut gear maskS maskL (data.drop pos)) (by omega)]
      have hdd : data.drop (pos + fastcdcCut gear maskS maskL (data.drop pos))
          = (data.drop pos).drop (fastcdcCut gear maskS maskL (data.drop pos)) := by
        rw [List.drop_drop]
      rw [hdd]
      exact List.take_append_drop _ _

theorem chunkSpans_covering (gear : Nat → Nat) (maskS maskL : Nat) (data : Bytes) :
    ∀ (fuel pos : Nat), data.length - pos ≤ fuel → pos ≤ data.length →
      spansCovering data.length pos (chunkSpans gear maskS maskL data pos) = true := by
  intro fuel
  induction fuel with
  | zero =>
    intro pos hle hub
    have : pos = data.length := by omega
    rw [chunkSpans]
    simp [this, spansCovering]
  | succ m ih =>
    intro pos hle hub
    rw [chunkSpans]
    split
    · rename_i hge
      have : pos = data.length := by omega
      simp [this, spansCovering]
    · rename_i hlt
      push_neg at hlt
      have hne : data.drop pos ≠ [] := by
        intro hnil
        have := List.drop_eq_nil_iff.mp hnil
        omega
      have hpos := fastcdcCut_pos gear maskS maskL (data.drop pos) hne
      have hcle : fastcdcCut gear maskS maskL (data.drop pos) ≤ (data.drop pos).length :=
        fastcdcCut_le gear maskS maskL (data.drop pos)
      rw [List.length_drop] at hcle
      simp only [spansCovering, beq_self_eq_true, Bool.true_and, Bool.and_eq_true,
        bne_iff_ne, ne_eq]
      refine ⟨by omega, ?_⟩
      exact ih (pos + fastcdcCut gear maskS maskL (data.drop pos)) (by omega) (by omega)

/-- C5: the chunker's spans cover the input exactly once, in order, with no
gaps or overlaps — concatenating the produced chunks' bytes reproduces the
input — and empty input yields an empty chunk sequence.  Holds for every gear
table and every pair of masks. -/
theorem chunker_covers_input (b3 : Bytes → Bytes) (gear : Nat → Nat)
    (maskS maskL : Nat) (data : Bytes) :
    ((chunk_data b3 gear maskS maskL data).map Chunk.data).flatten = data
    ∧ spansCovering data.length 0 (chunkSpans gear maskS maskL data 0) = true
    ∧ chunk_data b3 gear maskS maskL [] = [] := by
  refine ⟨?_, ?_, ?_⟩
  · have h := chunkSpans_join gear maskS maskL data data.length 0 (by omega)
    simpa [chunk_data, List.map_map, Function.comp] using h
  · exact chunkSpans_covering gear maskS maskL data data.length 0 (by omega) (by omega)
  · rw [chunk_data, chunkSpans]
    simp

/-- A scanned filesystem entry (src/scanner.rs, `enum ScannedEntry`).  Names
are modelled by their UTF-8 bytes (`name.as_bytes()` is what every consumer
hashes or compares). -/
inductive ScannedEntry where
  | File (name : Bytes) (permissions : Nat) (size : Nat) (data : Bytes)
  | Directory (name : Bytes) (permissions : Nat) (children : List ScannedEntry)
deriving Repr

/-- A node of the merkle tree (src/merkle.rs, `enum Node`). -/
inductive Node where
  | File (name : Bytes) (permissions : Nat) (size : Nat) (chunks : List Bytes) (hash : Bytes)
  | Directory (name : Bytes) (permissions : Nat) (children : List Node) (hash : Bytes)
deriving Repr

/-- `Node::name` accessor (src/merkle.rs:25-30). -/
def Node.name : Node → Bytes
  | .File n _ _ _ _ => n
  | .Directory n _ _ _ => n

/-- `Node::hash` accessor (src/merkle.rs:32-37). -/
def Node.hash : Node → Bytes
  | .File _ _ _ _ h => h
  | .Directory _ _ _ h => h

/-- The per-variant `permissions` field match used at src/merkle.rs:80-83. -/
def Node.permissions : Node → Nat
  | .File _ p _ _ _ => p
  | .Directory _ p _ _ => p

/-- Model of `flatten_entry` (src/scanner.rs:39-64): a file is a singleton;
a directory is emitted first with an emptied children list, followed by the
flattened children in order. -/
def flatten_entry : ScannedEntry → List ScannedEntry
  | .File n p s d => [.File n p s d]
  | .Directory name permissions children =>
    ScannedEntry.Directory name permissions []
      :: (children.attach.map (fun c => flatten_entry c.1)).flatten
decreasing_by
  simp_wf
  have := List.sizeOf_lt_of_mem c.2
  omega

/-- Accumulating hasher (`blake3::Hasher` as used in src/merkle.rs): `update`
appends bytes to the stream, `finalize` applies the hash function `b3` to the
accumulated stream. -/
structure Hasher where
  acc : Bytes

def Hasher.new : Hasher := ⟨[]⟩

def Hasher.update (h : Hasher) (b : Bytes) : Hasher := ⟨h.acc ++ b⟩

def Hasher.finalize (b3 : Bytes → Bytes) (h : Hasher) : Bytes := b3 h.acc

/-- `permissions.to_le_bytes()`: a u32 as four little-endian bytes. -/
def toLeBytes (p : Nat) : Bytes :=
  [p % 256, p / 256 % 256, p / 65536 % 256, p / 16777216 % 256]

/-- The loop body of the directory hash at src/merkle.rs:78-85: update with the
child's name bytes, its permissions as LE32, then its hash. -/
def dirUpdate (h : Hasher) (c : Node) : Hasher :=
  Hasher.update (Hasher.update (Hasher.update h c.name) (toLeBytes c.permissions)) c.hash

/-- Model of `build_node` (src/merkle.rs:47-96).  The `&mut Vec<Chunk>`
accumulator is rendered by returning the list of chunks appended by the call,
in the same order the Rust code pushes them (depth-first, files in order).
`b3` abstracts BLAKE3, `gear`/`maskS`/`maskL` the chunker's tables. -/
def build_node (b3 : Bytes → Bytes) (gear : Nat → Nat) (maskS maskL : Nat) :
    ScannedEntry → Node × List Chunk
  | .File name permissions size data =>
    let chunks := chunk_data b3 gear maskS maskL data
    let chunkHashes := chunks.map Chunk.hash
    let hash := Hasher.finalize b3 (chunkHashes.foldl Hasher.update Hasher.new)
    (Node.File name permissions size chunkHashes hash, chunks)
  | .Directory name permissions children =>
    let results := children.attach.map (fun c => build_node b3 gear maskS maskL c.1)
    let childNodes := results.map Prod.fst
    let hash := Hasher.finalize b3 (childNodes.foldl dirUpdate Hasher.new)
    (Node.Directory name permissions childNodes hash, (results.map Prod.snd).flatten)
decreasing_by
  simp_wf
  have := List.sizeOf_lt_of_mem c.2
  omega

/-- Model of `build_tree` (src/merkle.rs:41-45). -/
def build_tree (b3 : Bytes → Bytes) (gear : Nat → Nat) (maskS maskL : Nat)
    (entry : ScannedEntry) : Node × List Chunk :=
  build_node b3 gear maskS maskL entry

theorem attach_map_fn {α β : Type _} (l : List α) (f : α → β) :
    l.attach.map (fun c => f c.1) = l.map f := by
  conv_rhs => rw [← List.attach_map_val l]

theorem attach_all_fn {α : Type _} (l : List α) (f : α → Bool) :
    l.attach.all (fun c => f c.1) = l.all f := by
  rw [Bool.eq_iff_iff]
  simp only [List.all_eq_true]
  constructor
  · intro hall x hx
    exact hall ⟨x, hx⟩ (List.mem_attach _ _)
  · intro hall c _
    exact hall c.1 c.2

theorem flatten_entry_file (n : Bytes) (p s : Nat) (d : Bytes) :
    flatten_entry (.File n p s d) = [.File n p s d] := by
  simp only [flatten_entry]

theorem flatten_entry_dir (n : Bytes) (p : Nat) (cs : List ScannedEntry) :
    flatten_entry (.Directory n p cs)
      = ScannedEntry.Directory n p [] :: (cs.map flatten_entry).flatten := by
  simp only [flatten_entry]
  rw [attach_map_fn]

theorem build_node_file (b3 : Bytes → Bytes) (gear : Nat → Nat) (maskS maskL : Nat)
    (n : Bytes) (p s : Nat) (d : Bytes) :
    build_node b3 gear maskS maskL (.File n p s d)
      = (Node.File n p s ((chunk_data b3 gear maskS maskL d).map Chunk.hash)
          (Hasher.finalize b3 (((chunk_data b3 gear maskS maskL d).map Chunk.hash).foldl
            Hasher.update Hasher.new)),
         chunk_data b3 gear maskS maskL d) := by
  simp only [build_node]

theorem build_node_dir (b3 : Bytes → Bytes) (gear : Nat → Nat) (maskS maskL : Nat)
    (n : Bytes) (p : Nat) (cs : List ScannedEntry) :
    build_node b3 gear maskS maskL (.Directory n p cs)
      = (Node.Directory n p ((cs.map (build_node b3 gear maskS maskL)).map Prod.fst)
          (Hasher.finalize b3 (((cs.map (build_node b3 gear maskS maskL)).map Prod.fst).foldl
            dirUpdate Hasher.new)),
         ((cs.map (build_node b3 gear maskS maskL)).map Prod.snd).flatten) := by
  simp only [build_node]
  rw [attach_map_fn]

theorem hasher_update_foldl (hs : List Bytes) :
    ∀ a : Hasher, (hs.foldl Hasher.update a).acc = a.acc ++ hs.flatten := by
  induction hs with
  | nil => intro a; simp
  | cons x rest ih =>
    intro a
    simp [List.foldl_cons, ih, Hasher.update, List.append_assoc]

/-- The byte stream hashed for a directory node, per spec Invariant 2:
for each child in order, its name bytes, its permissions as LE32, its hash. -/
def dirHashInput (children : List Node) : Bytes :=
  (children.map (fun c => c.name ++ toLeBytes c.permissions ++ c.hash)).flatten

theorem dir_foldl_acc (nodes : List Node) :
    ∀ a : Hasher, (nodes.foldl dirUpdate a).acc = a.acc ++ dirHashInput nodes := by
  induction nodes with
  | nil => intro a; simp [dirHashInput]
  | cons c rest ih =>
    intro a
    simp [List.foldl_cons, dirUpdate, Hasher.update, ih, dirHashInput, List.append_assoc]

/-- The two hash invariants of the spec, checked recursively at every node:
a File's hash is `b3` of the concatenation of its chunk digests in order, a
Directory's hash is `b3` of `dirHashInput` of its children. -/
def hashOk (b3 : Bytes → Bytes) : Node → Bool
  | .File _ _ _ chunks h => h == b3 chunks.flatten
  | .Directory _ _ children h =>
    (h == b3 (dirHashInput children)) && children.attach.all (fun c => hashOk b3 c.1)
decreasing_by
  simp_wf
  have := List.sizeOf_lt_of_mem c.2
  omega

theorem hashOk_dir (b3 : Bytes → Bytes) (n : Bytes) (p : Nat) (cs : List Node) (h : Bytes) :
    hashOk b3 (.Directory n p cs h)
      = ((h == b3 (dirHashInput cs)) && cs.all (hashOk b3)) := by
  simp only [hashOk]
  rw [attach_all_fn]

/-- C6: for every scanned entry (and every hash function, gear table and mask
pair) the tree produced by `build_tree` satisfies both hash invariants at
every node: a File's hash is BLAKE3 of its chunk digests concatenated in
order, a Directory's hash is BLAKE3 of the per-child concatenation of name
bytes, LE32 permissions and child hash, in child order. -/
theorem build_tree_hash_invariants (b3 : Bytes → Bytes) (gear : Nat → Nat)
    (maskS maskL : Nat) :
    (e : ScannedEntry) → hashOk b3 (build_tree b3 gear maskS maskL e).1 = true
  | .File n p s d => by
    rw [build_tree, build_node_file]
    simp only [hashOk, Hasher.finalize, hasher_update_foldl, Hasher.new]
    simp
  | .Directory n p cs => by
    rw [build_tree, build_node_dir, hashOk_dir]
    simp only [Bool.and_eq_true, beq_iff_eq, List.all_eq_true]
    constructor
    · rw [Hasher.finalize, dir_foldl_acc]
      rfl
    · intro x hx
      rw [List.mem_map] at hx
      obtain ⟨r, hr, hxr⟩ := hx
      rw [List.mem_map] at hr
      obtain ⟨c, hc, hrc⟩ := hr
      have hrec := build_tree_hash_invariants b3 gear maskS maskL c
      rw [build_tree] at hrec
      rw [← hxr, ← hrc]
      exact hrec

/-- Decidable check that a scanned directory entry carries no children
(files pass vacuously). -/
def dirChildrenEmpty : ScannedEntry → Bool
  | .File _ _ _ _ => true
  | .Directory _ _ cs => cs.isEmpty

theorem flatten_entry_all_empty :
    (e : ScannedEntry) → ∀ x ∈ flatten_entry e, dirChildrenEmpty x = true
  | .File n p s d => by
    rw [flatten_entry_file]
    intro x hx
    rw [List.mem_singleton] at hx
    subst hx
    rfl
  | .Directory n p cs => by
    rw [flatten_entry_dir]
    intro x hx
    rcases List.mem_cons.mp hx with h | h
    · subst h; rfl
    · rw [List.mem_flatten] at h
      obtain ⟨l, hl, hxl⟩ := h
      rw [List.mem_map] at hl
      obtain ⟨c, hc, hlc⟩ := hl
      rw [← hlc] at hxl
      exact flatten_entry_all_empty c x hxl

/-- C10: flattening a scanned directory yields the root first, as a Directory
with an emptied children list; every Directory in the flattened sequence is
childless; and the tree built from the single entry that `.next()` yields (as
push and the archive command do) is a childless Directory node accompanied by
no chunks at all — none of the directory's files survive. -/
theorem scan_flatten_childless_root (name : Bytes) (perms : Nat)
    (children : List ScannedEntry) (b3 : Bytes → Bytes) (gear : Nat → Nat)
    (maskS maskL : Nat) :
    (flatten_entry (ScannedEntry.Directory name perms children)).head?
        = some (ScannedEntry.Directory name perms [])
    ∧ (∀ x ∈ flatten_entry (ScannedEntry.Directory name perms children),
        dirChildrenEmpty x = true)
    ∧ build_tree b3 gear maskS maskL (ScannedEntry.Directory name perms [])
        = (Node.Directory name perms [] (b3 []), []) := by
  refine ⟨?_, flatten_entry_all_empty _, ?_⟩
  · rw [flatten_entry_dir]
    rfl
  · rw [build_tree, build_node_dir]
    simp [Hasher.finalize, Hasher.new]

/-- One row of the `snapshots` table (schema at src/server/storage.rs:74-80).
The `tree_data` BLOB is modelled by the `Node` it serializes (the codec is an
external collaborator per the spec); `created_at` is carried opaquely since no
wall clock is modelled. -/
structure SnapshotRow where
  id : Nat
  siteId : Nat
  tree : Node
  createdAt : String
  isCurrent : Bool

/-- Model of `Storage` (src/server/storage.rs): the index database's `sites`
and `snapshots` tables, plus the 256 chunk shards collapsed into a single
key-value list — partitioning by the first digest byte never changes what a
lookup returns.  `nextSiteId` and `nextSnapId` model SQLite rowid assignment
(`last_insert_rowid`). -/
structure Storage where
  sites : List (Nat × String)
  snapshots : List SnapshotRow
  chunks : List (Bytes × Bytes)
  nextSiteId : Nat
  nextSnapId : Nat

/-- A freshly opened storage with empty tables (src/server/storage.rs `open`). -/
def emptyStorage : Storage := ⟨[], [], [], 1, 1⟩

/-- The `INSERT OR REPLACE` upsert of src/server/storage.rs:130-133: replace
the payload of an existing row with the same hash, else append a new row. -/
def upsertChunk (h d : Bytes) : List (Bytes × Bytes) → List (Bytes × Bytes)
  | [] => [(h, d)]
  | (k, v) :: rest => if k == h then (k, d) :: rest else (k, v) :: upsertChunk h d rest

/-- Model of `store_chunk` (src/server/storage.rs:123-136). -/
def store_chunk (st : Storage) (hash data : Bytes) : Storage :=
  { st with chunks := upsertChunk hash data st.chunks }

/-- Model of `get_chunk` (src/server/storage.rs:139-155). -/
def get_chunk (st : Storage) (hash : Bytes) : Option Bytes :=
  (st.chunks.find? (fun c => c.1 == hash)).map Prod.snd

/-- Model of `has_chunks` (src/server/storage.rs:158-184): the input-ordered
subset of hashes that exist in storage. -/
def has_chunks (st : Storage) (hashes : List Bytes) : List Bytes :=
  hashes.filter (fun h => (get_chunk st h).isSome)

/-- The `SELECT id FROM sites WHERE hostname = ?` lookup. -/
def lookupSite (st : Storage) (hostname : String) : Option Nat :=
  (st.sites.find? (fun s => s.2 == hostname)).map Prod.fst

/-- Model of `get_or_create_site` (src/server/storage.rs:233-256). -/
def get_or_create_site (st : Storage) (hostname : String) : Nat × Storage :=
  match lookupSite st hostname with
  | some id => (id, st)
  | none =>
    (st.nextSiteId,
     { st with sites := st.sites ++ [(st.nextSiteId, hostname)],
               nextSiteId := st.nextSiteId + 1 })

/-- The row update applied by `UPDATE snapshots SET is_current = 0 WHERE
site_id = ?` to one row. -/
def clearFn (siteId : Nat) (r : SnapshotRow) : SnapshotRow :=
  if r.siteId == siteId then { r with isCurrent := false } else r

/-- `UPDATE snapshots SET is_current = 0 WHERE site_id = ?` over the table. -/
def clearCurrent (siteId : Nat) (rows : List SnapshotRow) : List SnapshotRow :=
  rows.map (clearFn siteId)

/-- The row update applied by `UPDATE snapshots SET is_current = 1 WHERE
id = ?` to one row (note: no site filter, matching the source). -/
def setFn (target : Nat) (r : SnapshotRow) : SnapshotRow :=
  if r.id == target then { r with isCurrent := true } else r

/-- `UPDATE snapshots SET is_current = 1 WHERE id = ?` over the table. -/
def setCurrentById (target : Nat) (rows : List SnapshotRow) : List SnapshotRow :=
  rows.map (setFn target)

/-- Model of `create_snapshot` (src/server/storage.rs:259-281), success path:
get or create the site, clear `is_current` on the site's rows, insert the new
row as current, return its rowid. -/
def create_snapshot (st : Storage) (hostname : String) (tree : Node) : Nat × Storage :=
  let res := get_or_create_site st hostname
  let st1 := res.2
  let newRow : SnapshotRow :=
    { id := st1.nextSnapId, siteId := res.1, tree := tree, createdAt := "", isCurrent := true }
  (st1.nextSnapId,
   { st1 with snapshots := clearCurrent res.1 st1.snapshots ++ [newRow],
              nextSnapId := st1.nextSnapId + 1 })

/-- The statements `create_snapshot` executes, in order, each a possible
failure point. -/
inductive SnapStep where
  | atSite
  | atSerialize
  | atClear
  | atInsert
deriving Repr, DecidableEq

/-- Model of `create_snapshot` (src/server/storage.rs:259-281) with a fault
injected at one of its statements.  The code opens no SQL transaction: each
`execute` runs in its own implicit transaction, so statements executed before
the fault remain committed, and a failing statement itself changes nothing.
Returns the new rowid on success, `none` on failure, together with the
storage state left behind. -/
def create_snapshot_faulty (st : Storage) (hostname : String) (tree : Node)
    (fault : Option SnapStep) : Option Nat × Storage :=
  if fault = some .atSite then (none, st)
  else
    let res := get_or_create_site st hostname
    let st1 := res.2
    if fault = some .atSerialize then (none, st1)
    else if fault = some .atClear then (none, st1)
    else
      let st2 := { st1 with snapshots := clearCurrent res.1 st1.snapshots }
      if fault = some .atInsert then (none, st2)
      else
        let newRow : SnapshotRow :=
          { id := st2.nextSnapId, siteId := res.1, tree := tree,
            createdAt := "", isCurrent := true }
        (some st2.nextSnapId,
         { st2 with snapshots := st2.snapshots ++ [newRow],
                    nextSnapId := st2.nextSnapId + 1 })

/-- Model of `get_current_snapshot` (src/server/storage.rs:284-308): the first
row of the site with `is_current = 1`, with its decoded tree. -/
def get_current_snapshot (st : Storage) (hostname : String) : Option (Nat × Node) :=
  match lookupSite st hostname with
  | none => none
  | some siteId =>
    (st.snapshots.find? (fun r => r.siteId == siteId && r.isCurrent)).map
      (fun r => (r.id, r.tree))

/-- Insertion step for `ORDER BY id DESC`. -/
def insertByIdDesc (r : SnapshotRow) : List SnapshotRow → List SnapshotRow
  | [] => [r]
  | x :: xs => if r.id ≤ x.id then x :: insertByIdDesc r xs else r :: x :: xs

/-- `ORDER BY id DESC` over a list of rows. -/
def sortByIdDesc (rows : List SnapshotRow) : List SnapshotRow :=
  rows.foldr insertByIdDesc []

/-- The site's snapshot rows ordered by id descending (the join and ORDER BY
of `list_snapshots`). -/
def siteRowsDesc (st : Storage) (hostname : String) : List SnapshotRow :=
  match lookupSite st hostname with
  | none => []
  | some siteId => sortByIdDesc (st.snapshots.filter (fun r => r.siteId == siteId))

/-- Model of `list_snapshots` (src/server/storage.rs:311-331): triples
`(id, is_current, created_at)` ordered by id descending. -/
def list_snapshots (st : Storage) (hostname : String) : List (Nat × Bool × String) :=
  (siteRowsDesc st hostname).map (fun r => (r.id, r.isCurrent, r.createdAt))

/-- Model of `set_current_snapshot` (src/server/storage.rs:334-377): look up
the site, check the snapshot belongs to it, clear `is_current` for the site,
set the target row current by id. -/
def set_current_snapshot (st : Storage) (hostname : String) (snapshotId : Nat) :
    Bool × Storage :=
  match lookupSite st hostname with
  | none => (false, st)
  | some siteId =>
    if st.snapshots.any (fun r => r.id == snapshotId && r.siteId == siteId) then
      let rows := setCurrentById snapshotId (clearCurrent siteId st.snapshots)
      (true, { st with snapshots := rows })
    else (false, st)

/-- A mutating storage call of claim C3: a successful `CreateSnapshot` or a
`SetCurrentSnapshot`. -/
inductive StoreOp where
  | commit (hostname : String) (tree : Node)
  | setCurrent (hostname : String) (snapshotId : Nat)

/-- Run one storage mutation against the model. -/
def applyOp (st : Storage) : StoreOp → Storage
  | .commit h t => (create_snapshot st h t).2
  | .setCurrent h i => (set_current_snapshot st h i).2

/-- Run a sequence of storage mutations, left to right. -/
def applyOps (st : Storage) (ops : List StoreOp) : Storage := ops.foldl applyOp st

/-- Is this row a current snapshot of the given site? -/
def isCurrentOf (sid : Nat) (r : SnapshotRow) : Bool := r.siteId == sid && r.isCurrent

/-- Number of rows of the given site with `is_current = 1`. -/
def currentCount (st : Storage) (sid : Nat) : Nat := st.snapshots.countP (isCurrentOf sid)

/-- Snapshot rowids are pairwise distinct (rowids are a primary key). -/
def idsDistinct (rows : List SnapshotRow) : Prop :=
  List.Pairwise (fun a b => a.id ≠ b.id) rows

/-- Invariant of reachable storage states: distinct rowids, rowids below the
next one to be assigned, and at most one current row per site. -/
structure StInv (st : Storage) : Prop where
  uniq : idsDistinct st.snapshots
  bounded : ∀ r ∈ st.snapshots, r.id < st.nextSnapId
  current : ∀ sid, currentCount st sid ≤ 1

theorem clearFn_id (sid : Nat) (r : SnapshotRow) : (clearFn sid r).id = r.id := by
  unfold clearFn
  split <;> rfl

theorem clearFn_siteId (sid : Nat) (r : SnapshotRow) : (clearFn sid r).siteId = r.siteId := by
  unfold clearFn
  split <;> rfl

theorem setFn_id (t : Nat) (r : SnapshotRow) : (setFn t r).id = r.id := by
  unfold setFn
  split <;> rfl

theorem setFn_siteId (t : Nat) (r : SnapshotRow) : (setFn t r).siteId = r.siteId := by
  unfold setFn
  split <;> rfl

theorem countP_map_congr {α β : Type _} (f : α → β) (p : β → Bool) (q : α → Bool) :
    ∀ l : List α, (∀ a ∈ l, p (f a) = q a) → (l.map f).countP p = l.countP q := by
  intro l
  induction l with
  | nil => intro _; rfl
  | cons x xs ih =>
    intro h
    simp only [List.map_cons, List.countP_cons]
    rw [ih (fun a ha => h a (List.mem_cons_of_mem _ ha)), h x (List.mem_cons_self _ _)]

theorem clearCurrent_countP_self (sid : Nat) (rows : List SnapshotRow) :
    (clearCurrent sid rows).countP (isCurrentOf sid) = 0 := by
  have h := countP_map_congr (clearFn sid) (isCurrentOf sid) (fun _ => false) rows ?_
  · rw [clearCurrent, h]
    simp [List.countP_eq_zero]
  · intro r _
    unfold isCurrentOf clearFn
    by_cases hr : r.siteId = sid <;> simp [hr]

theorem clearCurrent_countP_other (sid sid2 : Nat) (hne : sid2 ≠ sid)
    (rows : List SnapshotRow) :
    (clearCurrent sid rows).countP (isCurrentOf sid2) = rows.countP (isCurrentOf sid2) := by
  rw [clearCurrent]
  apply countP_map_congr
  intro r _
  unfold isCurrentOf clearFn
  by_cases hr : r.siteId = sid
  · simp [hr, Ne.symm hne]
  · simp [hr]

theorem countP_id_le_one {rows : List SnapshotRow} (h : idsDistinct rows) (t : Nat) :
    rows.countP (fun r => r.id == t) ≤ 1 := by
  induction rows with
  | nil => simp
  | cons x xs ih =>
    rcases List.pairwise_cons.mp h with ⟨hx, hxs⟩
    rw [List.countP_cons]
    by_cases hxt : x.id = t
    · have hz : xs.countP (fun r => r.id == t) = 0 := by
        rw [List.countP_eq_zero]
        intro r hr
        have := hx r hr
        simp only [beq_iff_eq]
        omega
      simp [hz, hxt]
    · have := ih hxs
      simp only [beq_iff_eq, hxt]
      simpa using this

theorem nat_beq_false {a b : Nat} (h : a ≠ b) : (a == b) = false := by
  cases hh : a == b
  · rfl
  · exact absurd (eq_of_beq hh) h

theorem mem_id_eq {rows : List SnapshotRow} (h : idsDistinct rows) :
    ∀ r ∈ rows, ∀ r2 ∈ rows, r.id = r2.id → r = r2 := by
  induction rows with
  | nil => intro r hr; cases hr
  | cons x xs ih =>
    rcases List.pairwise_cons.mp h with ⟨hx, hxs⟩
    intro r hr r2 hr2 heq
    rcases List.mem_cons.mp hr with h1 | h1 <;> rcases List.mem_cons.mp hr2 with h2 | h2
    · rw [h1, h2]
    · subst h1
      exact absurd heq (hx r2 h2)
    · subst h2
      exact absurd heq.symm (hx r h1)
    · exact ih hxs r h1 r2 h2 heq

theorem pointwise_set_clear_self (sid i : Nat) (r : SnapshotRow)
    (hF : r.id = i → r.siteId = sid) :
    isCurrentOf sid (setFn i (clearFn sid r)) = (r.id == i) := by
  unfold isCurrentOf setFn clearFn
  by_cases hri : r.id = i
  · have hsid := hF hri
    simp [hri, hsid]
  · by_cases hrs : r.siteId = sid
    · simp [hrs, nat_beq_false hri]
    · simp [nat_beq_false hri, nat_beq_false hrs]

theorem pointwise_set_clear_other (sid sid2 i : Nat) (hne : sid2 ≠ sid) (r : SnapshotRow)
    (hF : r.id = i → r.siteId = sid) :
    isCurrentOf sid2 (setFn i (clearFn sid r)) = isCurrentOf sid2 r := by
  unfold isCurrentOf setFn clearFn
  by_cases hri : r.id = i
  · have hsid := hF hri
    simp [hri, hsid, nat_beq_false (Ne.symm hne)]
  · by_cases hrs : r.siteId = sid
    · simp [hrs, nat_beq_false hri, nat_beq_false (Ne.symm hne)]
    · simp [nat_beq_false hri, nat_beq_false hrs]

theorem get_or_create_site_state (st : Storage) (h : String) :
    (get_or_create_site st h).2.snapshots = st.snapshots
    ∧ (get_or_create_site st h).2.nextSnapId = st.nextSnapId
    ∧ (get_or_create_site st h).2.chunks = st.chunks := by
  unfold get_or_create_site
  cases lookupSite st h <;> exact ⟨rfl, rfl, rfl⟩

theorem create_snapshot_inv (st : Storage) (h : String) (t : Node) (hinv : StInv st) :
    StInv (create_snapshot st h t).2 := by
  obtain ⟨hsnap, hnext, _⟩ := get_or_create_site_state st h
  unfold create_snapshot
  constructor
  · unfold idsDistinct
    rw [List.pairwise_append]
    refine ⟨?_, List.pairwise_singleton _ _, ?_⟩
    · rw [clearCurrent, List.pairwise_map]
      apply (hsnap ▸ hinv.uniq).imp
      intro a b hab
      simpa [clearFn_id] using hab
    · intro a ha b hb
      rw [List.mem_singleton] at hb
      subst hb
      rw [clearCurrent, List.mem_map] at ha
      obtain ⟨r, hr, hra⟩ := ha
      have := hinv.bounded r (hsnap ▸ hr)
      rw [← hra, clearFn_id]
      simp only [hnext]
      omega
  · intro r hr
    rcases List.mem_append.mp hr with hr | hr
    · rw [clearCurrent, List.mem_map] at hr
      obtain ⟨r0, hr0, hrr⟩ := hr
      have := hinv.bounded r0 (hsnap ▸ hr0)
      rw [← hrr, clearFn_id]
      simp only [hnext]
      omega
    · rw [List.mem_singleton] at hr
      subst hr
      simp only [hnext]
      omega
  · intro sid
    unfold currentCount
    simp only [List.countP_append]
    by_cases hs : sid = (get_or_create_site st h).1
    · subst hs
      rw [hsnap, clearCurrent_countP_self]
      simp [isCurrentOf]
    · rw [hsnap, clearCurrent_countP_other _ _ hs]
      have h1 := hinv.current sid
      unfold currentCount at h1
      have h2 : (isCurrentOf sid
          { id := (get_or_create_site st h).2.nextSnapId,
            siteId := (get_or_create_site st h).1, tree := t,
            createdAt := "", isCurrent := true }) = false := by
        unfold isCurrentOf
        simp [Ne.symm hs]
      simp [h2]
      omega

theorem set_current_snapshot_inv (st : Storage) (h : String) (i : Nat) (hinv : StInv st) :
    StInv (set_current_snapshot st h i).2 := by
  unfold set_current_snapshot
  cases hls : lookupSite st h with
  | none => exact hinv
  | some sid =>
    simp only
    split
    · rename_i hany
      rw [List.any_eq_true] at hany
      obtain ⟨r0, hr0, hp0⟩ := hany
      simp only [Bool.and_eq_true, beq_iff_eq] at hp0
      have hF : ∀ r ∈ st.snapshots, r.id = i → r.siteId = sid := by
        intro r hr hri
        have := mem_id_eq hinv.uniq r hr r0 hr0 (by omega)
        rw [this, hp0.2]
      have hmap : setCurrentById i (clearCurrent sid st.snapshots)
          = st.snapshots.map (fun r => setFn i (clearFn sid r)) := by
        rw [setCurrentById, clearCurrent, List.map_map]
        rfl
      constructor
      · unfold idsDistinct
        dsimp only
        rw [hmap, List.pairwise_map]
        apply hinv.uniq.imp
        intro a b hab
        simpa [setFn_id, clearFn_id] using hab
      · intro r hr
        dsimp only at hr ⊢
        rw [hmap, List.mem_map] at hr
        obtain ⟨r0b, hr0b, hrr⟩ := hr
        have := hinv.bounded r0b hr0b
        rw [← hrr, setFn_id, clearFn_id]
        omega
      · intro sid2
        unfold currentCount
        dsimp only
        rw [hmap]
        by_cases hs : sid2 = sid
        · subst hs
          rw [countP_map_congr _ _ (fun r => r.id == i) st.snapshots
            (fun r hr => pointwise_set_clear_self sid2 i r (hF r hr))]
          exact countP_id_le_one hinv.uniq i
        · rw [countP_map_congr _ _ (isCurrentOf sid2) st.snapshots
            (fun r hr => pointwise_set_clear_other sid sid2 i hs r (hF r hr))]
          exact hinv.current sid2
    · exact hinv

theorem applyOp_inv (st : Storage) (op : StoreOp) (hinv : StInv st) :
    StInv (applyOp st op) := by
  cases op with
  | commit h t => exact create_snapshot_inv st h t hinv
  | setCurrent h i => exact set_current_snapshot_inv st h i hinv

theorem emptyStorage_inv : StInv emptyStorage := by
  refine ⟨List.Pairwise.nil, ?_, ?_⟩
  · intro r hr
    cases hr
  · intro sid
    simp [currentCount, emptyStorage]

theorem applyOps_inv (ops : List StoreOp) : StInv (applyOps emptyStorage ops) := by
  suffices hgen : ∀ st, StInv st → StInv (applyOps st ops) from hgen _ emptyStorage_inv
  induction ops with
  | nil => intro st hst; exact hst
  | cons op rest ih =>
    intro st hst
    exact ih _ (applyOp_inv st op hst)

/-- C3: starting from a fresh storage, after any sequence of successful
`CreateSnapshot` and `SetCurrentSnapshot` calls, every site — in particular
the site of every hostname, since `lookupSite` assigns one site id per
hostname — has at most one snapshot row with `is_current = 1`. -/
theorem at_most_one_current (ops : List StoreOp) (sid : Nat) :
    currentCount (applyOps emptyStorage ops) sid ≤ 1 :=
  (applyOps_inv ops).current sid

/-- An empty root directory node, used in concrete storage scenarios
(permissions 0o755 = 493). -/
def sampleTree : Node := Node.Directory [] 493 [] []

/-- A storage state holding site 1 = example.com with a single snapshot row
(id 1) marked current. -/
def snapStorage1 : Storage :=
  { sites := [(1, "example.com")],
    snapshots := [{ id := 1, siteId := 1, tree := sampleTree,
                    createdAt := "", isCurrent := true }],
    chunks := [],
    nextSiteId := 2,
    nextSnapId := 2 }

/-- C2: `create_snapshot` runs its clear-current UPDATE and its INSERT as two
separate autocommitted statements, with no wrapping transaction.  When the
INSERT fails after the UPDATE has committed, the failed call leaves the
site's previously-current row cleared: the `is_current` flags are not as they
were before the call. -/
theorem create_snapshot_fault_changes_flags :
    (create_snapshot_faulty snapStorage1 "example.com" sampleTree
      (some SnapStep.atInsert)).1 = none
    ∧ ((create_snapshot_faulty snapStorage1 "example.com" sampleTree
        (some SnapStep.atInsert)).2.snapshots.map (fun r => (r.id, r.isCurrent)))
      = [(1, false)]
    ∧ (snapStorage1.snapshots.map (fun r => (r.id, r.isCurrent))) = [(1, true)] :=
  ⟨rfl, rfl, rfl⟩

/-- C8 counterexample: `store_chunk` is an `INSERT OR REPLACE` and the server
never verifies that a digest matches its bytes, so a second `PutChunk` with
the same digest and different bytes overwrites the first; `GetChunk` then
returns the new bytes, not the originally stored ones. -/
theorem store_chunk_overwrites :
    get_chunk (store_chunk (store_chunk emptyStorage [0] [1]) [0] [2]) [0] = some [2]
    ∧ (some ([2] : Bytes) ≠ some ([1] : Bytes)) :=
  ⟨rfl, by decide⟩

/-- Apply a sequence of `PutChunk(digest, bytes)` calls in order. -/
def applyPuts (st : Storage) (puts : List (Bytes × Bytes)) : Storage :=
  puts.foldl (fun s p => store_chunk s p.1 p.2) st

theorem bytes_beq_false {a b : Bytes} (h : a ≠ b) : (a == b) = false := by
  cases hh : a == b
  · rfl
  · exact absurd (eq_of_beq hh) h

theorem upsert_find_self (d b : Bytes) :
    ∀ l, (((upsertChunk d b l).find? (fun c => c.1 == d)).map Prod.snd) = some b := by
  intro l
  induction l with
  | nil => simp [upsertChunk]
  | cons kv rest ih =>
    obtain ⟨k, v⟩ := kv
    by_cases hk : (k == d) = true
    · simp [upsertChunk, hk, List.find?]
    · simp only [upsertChunk, Bool.not_eq_true] at hk ⊢
      simp [hk, List.find?, ih]

theorem upsert_find_other (d b e : Bytes) (hne : d ≠ e) :
    ∀ l, ((upsertChunk d b l).find? (fun c => c.1 == e))
      = l.find? (fun c => c.1 == e) := by
  intro l
  induction l with
  | nil => simp [upsertChunk, List.find?, bytes_beq_false hne]
  | cons kv rest ih =>
    obtain ⟨k, v⟩ := kv
    by_cases hk : (k == d) = true
    · have hkd : k = d := eq_of_beq hk
      simp [upsertChunk, hk, List.find?, hkd, bytes_beq_false hne]
    · simp only [upsertChunk, Bool.not_eq_true] at hk ⊢
      cases hke : (k == e) <;> simp [hk, List.find?, hke, ih]

theorem get_chunk_store_self (st : Storage) (d b : Bytes) :
    get_chunk (store_chunk st d b) d = some b := by
  unfold get_chunk store_chunk
  exact upsert_find_self d b st.chunks

theorem get_chunk_store_other (st : Storage) (e v d : Bytes) (hne : e ≠ d) :
    get_chunk (store_chunk st e v) d = get_chunk st d := by
  unfold get_chunk store_chunk
  rw [upsert_find_other e v d hne st.chunks]

theorem get_chunk_applyPuts :
    ∀ (puts : List (Bytes × Bytes)) (st : Storage) (d b : Bytes),
      (∀ p ∈ puts, p.1 = d → p.2 = b) → get_chunk st d = some b →
      get_chunk (applyPuts st puts) d = some b := by
  intro puts
  induction puts with
  | nil => intro st d b _ hg; exact hg
  | cons p rest ih =>
    intro st d b hall hg
    have hstep : get_chunk (store_chunk st p.1 p.2) d = some b := by
      by_cases hpd : p.1 = d
      · have hb := hall p (List.mem_cons_self _ _) hpd
        rw [hpd, hb]
        exact get_chunk_store_self st d b
      · rw [get_chunk_store_other st p.1 p.2 d hpd]
        exact hg
    have hfold : applyPuts st (p :: rest) = applyPuts (store_chunk st p.1 p.2) rest := rfl
    rw [hfold]
    exact ih _ _ _ (fun q hq => hall q (List.mem_cons_of_mem _ hq)) hstep

/-- C8 (amended): after `PutChunk(d, b)` succeeds, `GetChunk(d)` returns the
bytes of the most recent `PutChunk` with digest `d`; in particular, when every
later put with digest `d` carries the same bytes `b` — the intended situation,
digests being BLAKE3 of the bytes — every later `GetChunk(d)` returns `b`,
whatever other digests are stored in between. -/
theorem get_chunk_after_puts (st : Storage) (d b : Bytes)
    (puts : List (Bytes × Bytes)) (hputs : ∀ p ∈ puts, p.1 = d → p.2 = b) :
    get_chunk (applyPuts (store_chunk st d b) puts) d = some b :=
  get_chunk_applyPuts puts (store_chunk st d b) d b hputs (get_chunk_store_self st d b)

/-- Witness for the amended C8 theorem at a concrete store and put sequence. -/
theorem get_chunk_after_puts_witness :
    get_chunk (applyPuts (store_chunk emptyStorage [0] [1])
      [([5], [7]), ([0], [1])]) [0] = some [1] :=
  get_chunk_after_puts emptyStorage [0] [1] [([5], [7]), ([0], [1])] (by decide)

/-- Client → server sync messages (src/protocol.rs:5-12). -/
inductive ClientMessage where
  | Auth (token : String)
  | HaveChunks (hashes : List Bytes)
  | ChunkData (hash : Bytes) (data : Bytes)
  | CommitTree (hostname : String) (tree : Node)
  | ListSnapshots (hostname : String)
  | Rollback (hostname : String) (snapshotId : Option Nat)

/-- Server → client sync messages (src/protocol.rs:15-25). -/
inductive ServerMessage where
  | AuthOk
  | AuthFailed
  | NeedChunks (hashes : List Bytes)
  | ChunkAck (hash : Bytes)
  | CommitOk (snapshotId : Nat)
  | CommitFailed (reason : String)
  | SnapshotList (snapshots : List (Nat × String × Bool))
  | RollbackOk (snapshotId : Nat)
  | RollbackFailed (reason : String)

/-- State of the server's sync session after a frame is handled: the message
loop of src/server/sync.rs:50-142 either continues (`ready`) or exits
(`closed`, on a Close frame or transport error — never on a decoded
`ClientMessage`). -/
inductive ConnState where
  | ready
  | closed
deriving Repr, DecidableEq

/-- Outcome of handling one decoded client frame: the reply sent (if any),
the storage left behind, and the session state. -/
structure StepResult where
  reply : Option ServerMessage
  storage : Storage
  state : ConnState

/-- Number of missing chunk references in a tree, counted per occurrence as
`verify_tree_chunks`/`verify_node_chunks` do (src/server/sync.rs:147-172). -/
def missingCount (st : Storage) : Node → Nat
  | .File _ _ _ chunks _ => (chunks.filter (fun d => (get_chunk st d).isNone)).length
  | .Directory _ _ children _ =>
    (children.attach.map (fun c => missingCount st c.1)).sum
decreasing_by
  simp_wf
  have := List.sizeOf_lt_of_mem c.2
  omega

theorem missingCount_dir (st : Storage) (n : Bytes) (p : Nat) (cs : List Node) (h : Bytes) :
    missingCount st (.Directory n p cs h) = (cs.map (missingCount st)).sum := by
  simp only [missingCount]
  rw [attach_map_fn]

/-- The `set_current_snapshot` call of the Rollback branch
(src/server/sync.rs:127-138). -/
def rollbackTo (st : Storage) (hostname : String) (targetId : Nat) : StepResult :=
  let res := set_current_snapshot st hostname targetId
  if res.1 then ⟨some (.RollbackOk targetId), res.2, .ready⟩
  else ⟨some (.RollbackFailed "Snapshot not found"), res.2, .ready⟩

/-- Model of one iteration of the post-auth message loop of `handle_sync`
(src/server/sync.rs:50-142).  `cleanup_old_snapshots` only reads (its delete
is a TODO stub), so it leaves storage unchanged; an `Auth` frame in the ready
state falls into the catch-all arm, which sends nothing. -/
def readyStep (st : Storage) (msg : ClientMessage) : StepResult :=
  match msg with
  | .HaveChunks hashes =>
    let stored := has_chunks st hashes
    let need := hashes.filter (fun d => !(stored.contains d))
    ⟨some (.NeedChunks need), st, .ready⟩
  | .ChunkData hash data =>
    ⟨some (.ChunkAck hash), store_chunk st hash data, .ready⟩
  | .CommitTree hostname tree =>
    if 0 < missingCount st tree then
      ⟨some (.CommitFailed ("Missing " ++ toString (missingCount st tree) ++ " chunks")),
       st, .ready⟩
    else
      let res := create_snapshot st hostname tree
      ⟨some (.CommitOk res.1), res.2, .ready⟩
  | .ListSnapshots hostname =>
    ⟨some (.SnapshotList ((list_snapshots st hostname).map
      (fun t => (t.1, t.2.2, t.2.1)))), st, .ready⟩
  | .Rollback hostname snapshotId =>
    let snaps := list_snapshots st hostname
    match snapshotId with
    | some i => rollbackTo st hostname i
    | none =>
      match snaps with
      | _ :: second :: _ => rollbackTo st hostname second.1
      | _ => ⟨some (.RollbackFailed "No previous snapshot to rollback to"), st, .ready⟩
  | .Auth _ => ⟨none, st, .ready⟩

/-- The UTF-8 bytes of an ASCII string literal (each char code is its byte). -/
def strBytes (s : String) : Bytes := s.data.map Char.toNat

/-- A file node referencing the single chunk digest `[0]`. -/
def fileTreeA : Node := Node.File (strBytes "a.txt") 420 1 [[0]] []

/-- C4: a `CommitTree` whose tree references at least one chunk digest absent
from the store is answered `CommitFailed` with a reason that extends
"Missing" (hence contains it), no snapshot row is created — the storage is
returned unchanged — and the session stays ready; when every referenced chunk
is present the server calls `create_snapshot` and replies `CommitOk` carrying
the new snapshot id. -/
theorem commit_tree_step (st : Storage) (hostname : String) (tree : Node) :
    (0 < missingCount st tree →
      readyStep st (.CommitTree hostname tree)
        = ⟨some (.CommitFailed
            ("Missing " ++ toString (missingCount st tree) ++ " chunks")), st, .ready⟩
      ∧ ∃ r, ("Missing " ++ toString (missingCount st tree) ++ " chunks").data
          = "Missing".data ++ r)
    ∧ (missingCount st tree = 0 →
      readyStep st (.CommitTree hostname tree)
        = ⟨some (.CommitOk (create_snapshot st hostname tree).1),
           (create_snapshot st hostname tree).2, .ready⟩) := by
  constructor
  · intro hm
    constructor
    · simp [readyStep, hm]
    · refine ⟨' ' :: ((toString (missingCount st tree)).data ++ " chunks".data), ?_⟩
      have hM : "Missing ".data = "Missing".data ++ [' '] := by decide
      simp [String.data_append, hM, List.append_assoc]
  · intro hm
    have hnot : ¬ 0 < missingCount st tree := by omega
    simp [readyStep, hnot]

/-- Witness for C4 at concrete inputs: a commit whose file references the
unstored digest `[0]` fails with the "Missing 1 chunks" reason and leaves the
fresh storage unchanged; a commit of an empty directory tree (no chunk
references) succeeds with the id returned by `create_snapshot`. -/
theorem commit_tree_step_witness :
    (0 < missingCount emptyStorage fileTreeA
      ∧ readyStep emptyStorage (ClientMessage.CommitTree "example.com" fileTreeA)
        = ⟨some (ServerMessage.CommitFailed
            ("Missing " ++ toString (missingCount emptyStorage fileTreeA) ++ " chunks")),
           emptyStorage, ConnState.ready⟩)
    ∧ (missingCount emptyStorage sampleTree = 0
      ∧ readyStep emptyStorage (ClientMessage.CommitTree "example.com" sampleTree)
        = ⟨some (ServerMessage.CommitOk
            (create_snapshot emptyStorage "example.com" sampleTree).1),
           (create_snapshot emptyStorage "example.com" sampleTree).2, ConnState.ready⟩) := by
  have h1 : 0 < missingCount emptyStorage fileTreeA := by
    simp [missingCount, fileTreeA, get_chunk, emptyStorage]
  have h2 : missingCount emptyStorage sampleTree = 0 := by
    rw [sampleTree, missingCount_dir]
    simp
  exact ⟨⟨h1, ((commit_tree_step emptyStorage "example.com" fileTreeA).1 h1).1⟩,
         ⟨h2, (commit_tree_step emptyStorage "example.com" sampleTree).2 h2⟩⟩

theorem mem_insertByIdDesc {r x : SnapshotRow} :
    ∀ l : List SnapshotRow, r ∈ insertByIdDesc x l ↔ (r = x ∨ r ∈ l) := by
  intro l
  induction l with
  | nil => simp [insertByIdDesc]
  | cons y ys ih =>
    simp only [insertByIdDesc]
    split
    · rw [List.mem_cons, ih, List.mem_cons]
      tauto
    · rw [List.mem_cons, List.mem_cons]

theorem mem_sortByIdDesc {r : SnapshotRow} :
    ∀ l : List SnapshotRow, r ∈ sortByIdDesc l ↔ r ∈ l := by
  intro l
  induction l with
  | nil => simp [sortByIdDesc]
  | cons x xs ih =>
    simp only [sortByIdDesc, List.foldr_cons]
    rw [mem_insertByIdDesc]
    rw [show xs.foldr insertByIdDesc [] = sortByIdDesc xs from rfl, ih, List.mem_cons]

theorem set_then_get (st : Storage) (hostname : String) (sid : Nat) (b : SnapshotRow)
    (hls : lookupSite st hostname = some sid)
    (hb : b ∈ st.snapshots) (hbs : b.siteId = sid) :
    set_current_snapshot st hostname b.id
      = (true, { st with snapshots := setCurrentById b.id (clearCurrent sid st.snapshots) })
    ∧ ∃ t, get_current_snapshot
        { st with snapshots := setCurrentById b.id (clearCurrent sid st.snapshots) } hostname
        = some (b.id, t) := by
  have hany : st.snapshots.any (fun r => r.id == b.id && r.siteId == sid) = true := by
    rw [List.any_eq_true]
    exact ⟨b, hb, by simp [hbs]⟩
  have hmap : setCurrentById b.id (clearCurrent sid st.snapshots)
      = st.snapshots.map (fun r => setFn b.id (clearFn sid r)) := by
    rw [setCurrentById, clearCurrent, List.map_map]
    rfl
  constructor
  · unfold set_current_snapshot
    rw [hls]
    simp [hany]
  · have hy0mem : setFn b.id (clearFn sid b) ∈
        setCurrentById b.id (clearCurrent sid st.snapshots) := by
      rw [hmap]
      exact List.mem_map_of_mem _ hb
    have hy0p : ((setFn b.id (clearFn sid b)).siteId == sid
        && (setFn b.id (clearFn sid b)).isCurrent) = true := by
      unfold setFn clearFn
      simp [hbs]
    have hsome : (((setCurrentById b.id (clearCurrent sid st.snapshots)).find?
        (fun r => r.siteId == sid && r.isCurrent))).isSome := by
      rw [List.find?_isSome]
      exact ⟨_, hy0mem, hy0p⟩
    obtain ⟨y, hy⟩ := Option.isSome_iff_exists.mp hsome
    have hpy := List.find?_some hy
    have hymem := List.mem_of_find?_eq_some hy
    have hyid : y.id = b.id := by
      rw [hmap, List.mem_map] at hymem
      obtain ⟨x, hx, hxy⟩ := hymem
      by_cases hxid : x.id = b.id
      · rw [← hxy, setFn_id, clearFn_id, hxid]
      · exfalso
        rw [← hxy] at hpy
        unfold setFn clearFn at hpy
        by_cases hxs : x.siteId = sid
        · simp [hxs, nat_beq_false hxid] at hpy
        · simp [nat_beq_false hxid, nat_beq_false hxs] at hpy
    refine ⟨y.tree, ?_⟩
    unfold get_current_snapshot
    have hls2 : lookupSite
        { st with snapshots := setCurrentById b.id (clearCurrent sid st.snapshots) } hostname
        = some sid := hls
    rw [hls2]
    dsimp only
    rw [hy]
    simp [hyid]

/-- C7: for a `Rollback` message carrying no snapshot id: when the site has
fewer than two snapshots the server replies `RollbackFailed` "No previous
snapshot to rollback to" and the storage is unchanged; otherwise it makes the
second entry of the id-descending snapshot list current, replies `RollbackOk`
with that entry's id, stays ready, and `GetCurrentSnapshot` afterwards
returns that snapshot. -/
theorem rollback_previous (st : Storage) (hostname : String) :
    ((list_snapshots st hostname).length < 2 →
      readyStep st (.Rollback hostname none)
        = ⟨some (.RollbackFailed "No previous snapshot to rollback to"), st, .ready⟩)
    ∧ (∀ s1 s2 tl, list_snapshots st hostname = s1 :: s2 :: tl →
      (readyStep st (.Rollback hostname none)).reply = some (.RollbackOk s2.1)
      ∧ (readyStep st (.Rollback hostname none)).state = .ready
      ∧ ∃ t, get_current_snapshot (readyStep st (.Rollback hostname none)).storage hostname
          = some (s2.1, t)) := by
  constructor
  · intro hlen
    cases hsn : list_snapshots st hostname with
    | nil => simp [readyStep, hsn]
    | cons a tl =>
      cases tl with
      | nil => simp [readyStep, hsn]
      | cons c tl2 =>
        exfalso
        rw [hsn] at hlen
        simp only [List.length_cons] at hlen
        omega
  · intro s1 s2 tl hlist
    have hsn := hlist
    unfold list_snapshots at hsn
    cases hrows : siteRowsDesc st hostname with
    | nil =>
      rw [hrows] at hsn
      simp at hsn
    | cons a tl0 =>
      cases tl0 with
      | nil =>
        rw [hrows] at hsn
        simp at hsn
      | cons b tl1 =>
        rw [hrows] at hsn
        simp only [List.map_cons] at hsn
        injection hsn with h1 hrest
        injection hrest with h2 htl
        cases hls : lookupSite st hostname with
        | none =>
          have hnil : siteRowsDesc st hostname = [] := by
            unfold siteRowsDesc
            rw [hls]
          rw [hnil] at hrows
          cases hrows
        | some sid =>
          have hrows2 : sortByIdDesc (st.snapshots.filter (fun r => r.siteId == sid))
              = a :: b :: tl1 := by
            have hsr : siteRowsDesc st hostname
                = sortByIdDesc (st.snapshots.filter (fun r => r.siteId == sid)) := by
              unfold siteRowsDesc
              rw [hls]
            rw [← hsr]
            exact hrows
          have hbmem0 : b ∈ sortByIdDesc
              (st.snapshots.filter (fun r => r.siteId == sid)) := by
            rw [hrows2]
            exact List.mem_cons_of_mem _ (List.mem_cons_self _ _)
          have hbfil := (mem_sortByIdDesc _).mp hbmem0
          have hbmem := (List.mem_filter.mp hbfil).1
          have hbs : b.siteId = sid := eq_of_beq (List.mem_filter.mp hbfil).2
          obtain ⟨hset, t, hget⟩ := set_then_get st hostname sid b hls hbmem hbs
          have hid : s2.1 = b.id := by
            rw [← h2]
          have hstep : readyStep st (.Rollback hostname none)
              = rollbackTo st hostname s2.1 := by
            simp only [readyStep]
            rw [hlist]
          have hroll : rollbackTo st hostname s2.1
              = ⟨some (.RollbackOk s2.1),
                 { st with snapshots := setCurrentById b.id (clearCurrent sid st.snapshots) },
                 .ready⟩ := by
            unfold rollbackTo
            rw [hid, hset]
            simp
          refine ⟨?_, ?_, ?_⟩
          · rw [hstep, hroll]
          · rw [hstep, hroll]
          · refine ⟨t, ?_⟩
            rw [hstep, hroll, hid]
            exact hget

/-- Response body: reassembled file bytes or an error text (the Rust handler
returns either a byte `Body` or a `&str` message; the `Content-Type` header
comes from the external `mime_guess` collaborator and is not modelled). -/
inductive RespBody where
  | binary (b : Bytes)
  | text (s : String)
deriving Repr, DecidableEq

/-- An HTTP response: status code and body. -/
structure HttpResponse where
  status : Nat
  body : RespBody
deriving Repr, DecidableEq

/-- Byte-level `split('/')`: `cur` holds the current segment reversed. -/
def splitSeg (cur : Bytes) : Bytes → List Bytes
  | [] => [cur.reverse]
  | b :: rest => if b == 47 then cur.reverse :: splitSeg [] rest else splitSeg (b :: cur) rest

/-- `path.split('/').filter(|s| !s.is_empty())` at byte level ('/' = 47). -/
def splitPath (p : Bytes) : List Bytes :=
  (splitSeg [] p).filter (fun s => !s.isEmpty)

/-- Model of `find_node_recursive` (src/server/http.rs:108-124): at each
segment, descend into the first child whose name matches. -/
def find_node_recursive : Node → List Bytes → Option Node
  | node, [] => some node
  | node, part :: rest =>
    match node with
    | Node.Directory _ _ children _ =>
      match children.find? (fun c => c.name == part) with
      | some child => find_node_recursive child rest
      | none => none
    | Node.File _ _ _ _ _ => none

/-- Model of `find_node` (src/server/http.rs:93-106): strip leading slashes;
an empty path resolves to the root's `index.html` child; otherwise walk the
non-empty segments. -/
def find_node (tree : Node) (path : Bytes) : Option Node :=
  let p := path.dropWhile (fun b => b == 47)
  if p.isEmpty || p == [47] then
    match tree with
    | Node.Directory _ _ children _ =>
      children.find? (fun c => c.name == strBytes "index.html")
    | _ => none
  else
    find_node_recursive tree (splitPath p)

/-- The `Host` header with any `:port` suffix stripped
(`host.split(':').next().unwrap_or(&host)`), modelled at the character level:
the prefix before the first ':'. -/
def hostHeaderName (host : String) : String :=
  ⟨host.data.takeWhile (fun c => c ≠ ':')⟩

/-- The chunk-reassembly loop of `handle_request` (src/server/http.rs:69-79):
append each chunk's bytes, failing with 500 "Missing chunk" at the first
absent digest. -/
def assemble (st : Storage) : List Bytes → Bytes → HttpResponse
  | [], acc => ⟨200, .binary acc⟩
  | d :: rest, acc =>
    match get_chunk st d with
    | some cd => assemble st rest (acc ++ cd)
    | none => ⟨500, .text "Missing chunk"⟩

/-- Model of `handle_request` (src/server/http.rs:26-91). -/
def handle_request (st : Storage) (host : String) (path : Bytes) : HttpResponse :=
  match get_current_snapshot st (hostHeaderName host) with
  | none => ⟨404, .text "Site not found"⟩
  | some (_, tree) =>
    match find_node tree path with
    | none => ⟨404, .text "Not found"⟩
    | some (Node.File _ _ _ chunks _) => assemble st chunks []
    | some (Node.Directory _ _ _ _) =>
      let indexPath := if path.getLast? == some 47 then path ++ strBytes "index.html"
                       else path ++ strBytes "/index.html"
      match find_node tree indexPath with
      | some (Node.File _ _ _ chunks _) => assemble st chunks []
      | _ => ⟨404, .text "Not found"⟩

/-- Spec-side reassembly: the concatenation of `GetChunk(d)` over the digests
in order, defined when every digest is present. -/
def lookupAll (st : Storage) : List Bytes → Option Bytes
  | [] => some []
  | d :: rest =>
    match get_chunk st d, lookupAll st rest with
    | some cd, some r => some (cd ++ r)
    | _, _ => none

theorem assemble_eq (st : Storage) :
    ∀ (chunks : List Bytes) (acc : Bytes),
      assemble st chunks acc
        = match lookupAll st chunks with
          | some r => ⟨200, RespBody.binary (acc ++ r)⟩
          | none => ⟨500, RespBody.text "Missing chunk"⟩ := by
  intro chunks
  induction chunks with
  | nil => intro acc; simp [assemble, lookupAll]
  | cons d rest ih =>
    intro acc
    cases hg : get_chunk st d with
    | none => simp [assemble, lookupAll, hg]
    | some cd =>
      simp only [assemble, lookupAll, hg]
      rw [ih]
      cases lookupAll st rest <;> simp [List.append_assoc]

theorem lookupAll_none_iff (st : Storage) :
    ∀ ds : List Bytes, lookupAll st ds = none ↔ ∃ d ∈ ds, get_chunk st d = none := by
  intro ds
  induction ds with
  | nil => simp [lookupAll]
  | cons d rest ih =>
    cases hg : get_chunk st d with
    | none =>
      simp only [lookupAll, hg]
      constructor
      · intro _
        exact ⟨d, List.mem_cons_self _ _, hg⟩
      · intro _
        trivial
    | some cd =>
      cases hl : lookupAll st rest with
      | none =>
        simp only [lookupAll, hg, hl]
        constructor
        · intro _
          obtain ⟨x, hx, hgx⟩ := ih.mp hl
          exact ⟨x, List.mem_cons_of_mem _ hx, hgx⟩
        · intro _
          trivial
      | some r =>
        simp only [lookupAll, hg, hl]
        constructor
        · intro hfalse
          cases hfalse
        · rintro ⟨x, hx, hgx⟩
          rcases List.mem_cons.mp hx with hxd | hxr
          · subst hxd
            rw [hg] at hgx
            cases hgx
          · have hcontra := ih.mpr ⟨x, hxr, hgx⟩
            rw [hl] at hcontra
            cases hcontra

/-- C9: when the requested path resolves to a File node of the current
snapshot, the response is 200 whose body is the concatenation of
`GetChunk(d)` over the file's chunk digests in order; when any referenced
digest has no stored chunk — which is exactly when that concatenation is
undefined — the response is 500 with body "Missing chunk". -/
theorem http_file_response (st : Storage) (host : String) (path : Bytes)
    (sid : Nat) (tree : Node) (n : Bytes) (p sz : Nat) (chunks : List Bytes) (hh : Bytes)
    (hcur : get_current_snapshot st (hostHeaderName host) = some (sid, tree))
    (hfind : find_node tree path = some (Node.File n p sz chunks hh)) :
    (∀ body, lookupAll st chunks = some body →
      handle_request st host path = ⟨200, RespBody.binary body⟩)
    ∧ (lookupAll st chunks = none →
      handle_request st host path = ⟨500, RespBody.text "Missing chunk"⟩)
    ∧ (lookupAll st chunks = none ↔ ∃ d ∈ chunks, get_chunk st d = none) := by
  have hreq : handle_request st host path = assemble st chunks [] := by
    unfold handle_request
    rw [hcur]
    dsimp only
    rw [hfind]
  refine ⟨?_, ?_, lookupAll_none_iff st chunks⟩
  · intro body hb
    rw [hreq, assemble_eq, hb]
    simp
  · intro hb
    rw [hreq, assemble_eq, hb]

theorem attach_any_fn {α : Type _} (l : List α) (f : α → Bool) :
    l.attach.any (fun c => f c.1) = l.any f := by
  rw [Bool.eq_iff_iff]
  simp only [List.any_eq_true]
  constructor
  · rintro ⟨c, _, hc⟩
    exact ⟨c.1, c.2, hc⟩
  · rintro ⟨x, hx, hfx⟩
    exact ⟨⟨x, hx⟩, List.mem_attach _ _, hfx⟩

/-- Does the merkle tree contain any File node? -/
def containsFile : Node → Bool
  | .File _ _ _ _ _ => true
  | .Directory _ _ children _ => children.attach.any (fun c => containsFile c.1)
decreasing_by
  simp_wf
  have := List.sizeOf_lt_of_mem c.2
  omega

theorem containsFile_dir (n : Bytes) (p : Nat) (cs : List Node) (h : Bytes) :
    containsFile (.Directory n p cs h) = cs.any containsFile := by
  simp only [containsFile]
  rw [attach_any_fn]

/-- Does the scanned tree contain any File entry? -/
def scannedHasFile : ScannedEntry → Bool
  | .File _ _ _ _ => true
  | .Directory _ _ children => children.attach.any (fun c => scannedHasFile c.1)
decreasing_by
  simp_wf
  have := List.sizeOf_lt_of_mem c.2
  omega

theorem scannedHasFile_dir (n : Bytes) (p : Nat) (cs : List ScannedEntry) :
    scannedHasFile (.Directory n p cs) = cs.any scannedHasFile := by
  simp only [scannedHasFile]
  rw [attach_any_fn]

/-- A concrete stand-in hash function for evaluating the pipeline (the claims
hold for every hash function). -/
def b3id : Bytes → Bytes := fun b => b

/-- A concrete gear table for evaluating the pipeline. -/
def gear0 : Nat → Nat := fun _ => 0

/-- The bytes of "Hello, world!" (the repository's own round-trip test input,
archive_tests.rs `test_roundtrip_single_file`). -/
def helloBytes : Bytes := strBytes "Hello, world!"

/-- The scanned form of a directory holding the single file `test.txt`
containing "Hello, world!" (root mode 0o755, file mode 0o644). -/
def scannedSingleFile : ScannedEntry :=
  ScannedEntry.Directory [] 493
    [ScannedEntry.File (strBytes "test.txt") 420 13 helloBytes]

/-- C1: the archive pipeline evaluated at its failing input.  The scanned
directory contains a file, but `scan_directory` flattens it — so the single
entry `.next()` yields (used by `Commands::Archive` and by `push`) is the
root with its children emptied, and the tree built from it has no File node
and an empty chunk list: the written archive holds no file data, and
extraction cannot reproduce `test.txt`'s bytes, contradicting the round-trip
law (and the repository's own scanner and archive round-trip tests). -/
theorem archive_pipeline_drops_files :
    scannedHasFile scannedSingleFile = true
    ∧ (flatten_entry scannedSingleFile).head? = some (ScannedEntry.Directory [] 493 [])
    ∧ containsFile (build_tree b3id gear0 0 0
        ((flatten_entry scannedSingleFile).headD (ScannedEntry.Directory [] 0 []))).1 = false
    ∧ (build_tree b3id gear0 0 0
        ((flatten_entry scannedSingleFile).headD (ScannedEntry.Directory [] 0 []))).2 = [] := by
  have hflat : flatten_entry scannedSingleFile
      = [ScannedEntry.Directory [] 493 [],
         ScannedEntry.File (strBytes "test.txt") 420 13 helloBytes] := by
    rw [scannedSingleFile, flatten_entry_dir]
    simp [flatten_entry_file]
  have hbuild : build_tree b3id gear0 0 0 (ScannedEntry.Directory [] 493 [])
      = (Node.Directory [] 493 [] (b3id []), []) := by
    rw [build_tree, build_node_dir]
    simp [Hasher.finalize, Hasher.new]
  refine ⟨?_, ?_, ?_, ?_⟩
  · rw [scannedSingleFile, scannedHasFile_dir]
    simp [scannedHasFile]
  · rw [hflat]
    rfl
  · rw [hflat]
    simp only [List.headD_cons]
    rw [hbuild, containsFile_dir]
    rfl
  · rw [hflat]
    simp only [List.headD_cons]
    rw [hbuild]

/-- A storage state for `example.com` with snapshots 1 (not current) and 2
(current): the state after two commits, as in the spec's rollback scenario. -/
def snapStorage2 : Storage :=
  { sites := [(1, "example.com")],
    snapshots := [{ id := 1, siteId := 1, tree := sampleTree,
                    createdAt := "", isCurrent := false },
                  { id := 2, siteId := 1, tree := sampleTree,
                    createdAt := "", isCurrent := true }],
    chunks := [],
    nextSiteId := 2,
    nextSnapId := 3 }

/-- Witness for C7: on an empty storage a Rollback with no id fails with "No
previous snapshot to rollback to"; on the two-snapshot state it replies
`RollbackOk 1` (the second entry of the id-descending list), stays ready, and
`GetCurrentSnapshot` afterwards returns snapshot 1. -/
theorem rollback_previous_witness :
    readyStep emptyStorage (ClientMessage.Rollback "example.com" none)
      = ⟨some (ServerMessage.RollbackFailed "No previous snapshot to rollback to"),
         emptyStorage, ConnState.ready⟩
    ∧ (readyStep snapStorage2 (ClientMessage.Rollback "example.com" none)).reply
        = some (ServerMessage.RollbackOk 1)
    ∧ (readyStep snapStorage2 (ClientMessage.Rollback "example.com" none)).state
        = ConnState.ready
    ∧ ∃ t, get_current_snapshot
        (readyStep snapStorage2 (ClientMessage.Rollback "example.com" none)).storage
        "example.com" = some (1, t) := by
  have h1 := (rollback_previous emptyStorage "example.com").1 (by decide)
  have hlist : list_snapshots snapStorage2 "example.com"
      = [(2, true, ""), (1, false, "")] := rfl
  obtain ⟨hr, hs, ht⟩ := (rollback_previous snapStorage2 "example.com").2
    (2, true, "") (1, false, "") [] hlist
  exact ⟨h1, hr, hs, ht⟩

/-- A file node `a.txt` referencing the stored digest `[7]`. -/
def fileNodeA : Node := Node.File (strBytes "a.txt") 420 3 [[7]] []

/-- A file node `b.txt` referencing the unstored digest `[9]`. -/
def fileNodeB : Node := Node.File (strBytes "b.txt") 420 1 [[9]] []

/-- The current tree of the witness site: root with `a.txt` and `b.txt`. -/
def siteTree : Node := Node.Directory [] 493 [fileNodeA, fileNodeB] []

/-- Storage serving `example.com` with `siteTree` current and only chunk
`[7] ↦ [1, 2, 3]` stored. -/
def httpStorage : Storage :=
  { sites := [(1, "example.com")],
    snapshots := [{ id := 1, siteId := 1, tree := siteTree,
                    createdAt := "", isCurrent := true }],
    chunks := [([7], [1, 2, 3])],
    nextSiteId := 2,
    nextSnapId := 2 }

/-- Witness for C9: with the port-carrying Host header `example.com:8080`,
`GET /a.txt` returns 200 with the chunk bytes, and `GET /b.txt` (whose single
chunk is absent) returns 500 "Missing chunk". -/
theorem http_file_response_witness :
    handle_request httpStorage "example.com:8080" (strBytes "/a.txt")
      = ⟨200, RespBody.binary [1, 2, 3]⟩
    ∧ handle_request httpStorage "example.com:8080" (strBytes "/b.txt")
      = ⟨500, RespBody.text "Missing chunk"⟩ := by
  constructor
  · exact (http_file_response httpStorage "example.com:8080" (strBytes "/a.txt")
      1 siteTree (strBytes "a.txt") 420 3 [[7]] [] rfl rfl).1 [1, 2, 3] rfl
  · exact (http_file_response httpStorage "example.com:8080" (strBytes "/b.txt")
      1 siteTree (strBytes "b.txt") 420 1 [[9]] [] rfl rfl).2.1 rfl

end Webpub
